import Mathlib

/-!
Verification of the objex traversal-engine shape adapters.

This file gives a shallow embedding of the two Cython shape-extraction
helpers of the objex repository, `find_in_tuple_or_list`
(src/objgraphdump/checkers.pyx, also duplicated in the unnamed source
part) and `get_keys_dst` / `get_dict_keys_dst` (unnamed source part,
lines 143-167), and proves properties of the emitted edge lists.

Modelling conventions:
* A Python object is represented by its identity, a `Nat` id; the
  Python `is` comparison becomes equality of ids.
* `repr` is an arbitrary function `reprOf : Nat → String` from ids to
  their textual representation, passed as a parameter.
* A Python dict is a list of `(key-id, value-id)` entries in insertion
  order; the dict invariant (no duplicate keys) is a `Nodup` hypothesis
  where a proof needs it.  `for key in obj` iterates the keys in entry
  order; the subscript `obj[key]` is the fallible `dictLookup`.
* Edge labels are the dynamic union Python produces: strings (repr of a
  key, or the literal sentinel string `<key>`) for mappings, integer
  indices for sequences, modelled by the `Label` inductive.
* A generator that can only raise on a failed subscript or index is
  modelled as a function returning `Option` of the full yielded list,
  `none` meaning the call raises.
-/

/-- Edge labels: Python yields either a string (dict branch: `repr(key)`
or the literal `'<key>'`) or an integer index (sequence branch). -/
inductive Label where
  | str (s : String)
  | idx (i : Nat)
  deriving DecidableEq, Repr

/-- Python subscript `obj[key]` on a dict modelled as an entry list:
returns the value of the first entry with the given key, `none` when the
key is absent (a raised `KeyError`). -/
def dictLookup : List (Nat × Nat) → Nat → Option Nat
  | [], _ => none
  | kv :: rest, key => if key = kv.1 then some kv.2 else dictLookup rest key

/-- Inner loop of `get_dict_keys_dst` (unnamed part lines 163-167): for
one referent `ref`, scan the dict keys in order; for each key first
`if ref is key: yield ('<key>', ref)`, then
`if obj[key] is ref: yield (repr(key), ref)`.  The subscript `obj[key]`
is fallible; a failure aborts the generator (`none`). -/
def get_dict_keys_dst_inner (reprOf : Nat → String) (obj : List (Nat × Nat))
    (ref : Nat) : List Nat → Option (List (Label × Nat))
  | [] => some []
  | key :: rest =>
    match dictLookup obj key with
    | none => none
    | some v =>
      match get_dict_keys_dst_inner reprOf obj ref rest with
      | none => none
      | some tail =>
        some ((if ref = key then [(Label.str "<key>", ref)] else []) ++
              (if v = ref then [(Label.str (reprOf key), ref)] else []) ++ tail)

/-- `get_dict_keys_dst` (unnamed part lines 161-167):
```
cdef get_dict_keys_dst(dict obj, list referents):
    for ref in referents:
        for key in obj:
            if ref is key:
                yield ('<key>', ref)
            if obj[key] is ref:
                yield (repr(key), ref)
```
Outer loop over the referents list, inner loop over the dict keys in
entry order. -/
def get_dict_keys_dst (reprOf : Nat → String) (obj : List (Nat × Nat)) :
    List Nat → Option (List (Label × Nat))
  | [] => some []
  | ref :: rest =>
    match get_dict_keys_dst_inner reprOf obj ref (obj.map Prod.fst) with
    | none => none
    | some block =>
      match get_dict_keys_dst reprOf obj rest with
      | none => none
      | some tail => some (block ++ tail)

/-- Python `enumerate` starting at index `n`: yields `(i, x)` pairs. -/
def pyEnumerateFrom : Nat → List Nat → List (Label × Nat)
  | _, [] => []
  | n, x :: rest => (Label.idx n, x) :: pyEnumerateFrom (n + 1) rest

/-- Python `enumerate(obj)` for a sequence of object ids. -/
def pyEnumerate (xs : List Nat) : List (Label × Nat) :=
  pyEnumerateFrom 0 xs

/-- The dynamic shapes `get_keys_dst` dispatches on: `type(obj) in
(list, tuple)`, `type(obj) is dict`, and the fallback for objects with a
`__dict__` (whose `__dict__` maps attribute-name strings to ids). -/
inductive PyObj where
  | list (elems : List Nat)
  | tuple (elems : List Nat)
  | dict (entries : List (Nat × Nat))
  | instanceObj (dunderDict : List (String × Nat))

/-- `get_keys_dst` (unnamed part lines 143-156).  The `list`/`tuple`
branch returns `enumerate(obj)`; the `dict` branch delegates to
`get_dict_keys_dst`.  The remaining branch (lines 153-156) reads
```
    results = []
    if hasattr(obj, '__dict__'):
        obj.__dict__.keys():
            results.append(('<key>', ))
```
which is syntactically invalid (the third line has an indented block but
no loop keyword), appends the destination-less 1-tuple `('<key>',)`, and
the function never returns `results` (falling off the end would return
`None`, not a pair list).  No executable pair-list behaviour exists for
this branch, so it is modelled as failure (`none`). -/
def get_keys_dst (reprOf : Nat → String) (obj : PyObj) (referents : List Nat) :
    Option (List (Label × Nat)) :=
  match obj with
  | .list xs => some (pyEnumerate xs)
  | .tuple xs => some (pyEnumerate xs)
  | .dict d => get_dict_keys_dst reprOf d referents
  | .instanceObj _ => none

/-- The containers `find_in_tuple_or_list` dispatches on:
`type(container) is list`, `type(container) is tuple`, and the generic
fallback for any other sequence of object ids. -/
inductive Container where
  | list (xs : List Nat)
  | tuple (xs : List Nat)
  | other (xs : List Nat)

/-- The element sequence underlying a container, whichever branch it is
dispatched to. -/
def Container.elems : Container → List Nat
  | .list xs => xs
  | .tuple xs => xs
  | .other xs => xs

/-- Loop body shared shape of the three branches of
`find_in_tuple_or_list` (checkers.pyx lines 6-10, list branch):
`for i in range(len(list_container)): if list_container[i] is obj: yield i`.
The iteration space `range(len(...))` is passed explicitly; the
subscript is the fallible `List.get?`. -/
def list_branch_go (obj : Nat) (list_container : List Nat) :
    List Nat → Option (List Nat)
  | [] => some []
  | i :: rest =>
    match list_container.get? i with
    | none => none
    | some x =>
      match list_branch_go obj list_container rest with
      | none => none
      | some tail => some ((if x = obj then [i] else []) ++ tail)

/-- The `type(container) is list` branch of `find_in_tuple_or_list`. -/
def list_branch (obj : Nat) (list_container : List Nat) : Option (List Nat) :=
  list_branch_go obj list_container (List.range list_container.length)

/-- The tuple branch (checkers.pyx lines 11-15):
`for i in range(len(tuple_container)): if tuple_container[i] is obj: yield i`. -/
def tuple_branch_go (obj : Nat) (tuple_container : List Nat) :
    List Nat → Option (List Nat)
  | [] => some []
  | i :: rest =>
    match tuple_container.get? i with
    | none => none
    | some x =>
      match tuple_branch_go obj tuple_container rest with
      | none => none
      | some tail => some ((if x = obj then [i] else []) ++ tail)

/-- The `type(container) is tuple` branch of `find_in_tuple_or_list`. -/
def tuple_branch (obj : Nat) (tuple_container : List Nat) : Option (List Nat) :=
  tuple_branch_go obj tuple_container (List.range tuple_container.length)

/-- The generic fallback branch (checkers.pyx lines 16-19):
`for i in range(len(container)): if container[i] is obj: yield i`. -/
def other_branch_go (obj : Nat) (container : List Nat) :
    List Nat → Option (List Nat)
  | [] => some []
  | i :: rest =>
    match container.get? i with
    | none => none
    | some x =>
      match other_branch_go obj container rest with
      | none => none
      | some tail => some ((if x = obj then [i] else []) ++ tail)

/-- The `else` branch of `find_in_tuple_or_list`. -/
def other_branch (obj : Nat) (container : List Nat) : Option (List Nat) :=
  other_branch_go obj container (List.range container.length)

/-- `find_in_tuple_or_list` (checkers.pyx lines 2-19): dispatch on the
container's type, then run the matching scan loop. -/
def find_in_tuple_or_list (obj : Nat) (container : Container) :
    Option (List Nat) :=
  match container with
  | .list xs => list_branch obj xs
  | .tuple xs => tuple_branch obj xs
  | .other xs => other_branch obj xs

/-! ### Characterization layer

Total descriptions of the dict adapter's output, proved equal to the
embedded generator below. -/

/-- The edges `get_dict_keys_dst` emits for one referent `ref` while
scanning the entries `es` in order: per entry, the `<key>` sentinel edge
when `ref` is the key, then the repr-labelled value edge when the value
is `ref`. -/
def refBlockOn (reprOf : Nat → String) (ref : Nat) :
    List (Nat × Nat) → List (Label × Nat)
  | [] => []
  | kv :: rest =>
    (if ref = kv.1 then [(Label.str "<key>", ref)] else []) ++
    (if kv.2 = ref then [(Label.str (reprOf kv.1), ref)] else []) ++
    refBlockOn reprOf ref rest

/-- The full output of `get_dict_keys_dst`: the per-referent blocks
concatenated in referents-list order. -/
def dictBlocks (reprOf : Nat → String) (obj : List (Nat × Nat)) :
    List Nat → List (Label × Nat)
  | [] => []
  | ref :: rest => refBlockOn reprOf ref obj ++ dictBlocks reprOf obj rest

/-- An edge whose label is not the literal `<key>` sentinel string, i.e.
a repr-labelled value edge (provided no key's repr collides with the
sentinel string). -/
def isValueEdge (e : Label × Nat) : Bool :=
  decide (e.1 ≠ Label.str "<key>")

/-- A concrete 65-character textual representation, longer than the
64-character limit the specification's edge-label policy names. -/
def longKeyRepr : String :=
  "xxxxxxxxxxxxxxxxxxxxxxxxxxxxxxxxxxxxxxxxxxxxxxxxxxxxxxxxxxxxxxxxx"

/-- A subscript on a key drawn from the dict's own key list succeeds. -/
theorem dictLookup_isSome_of_mem (obj : List (Nat × Nat)) (k : Nat)
    (h : k ∈ obj.map Prod.fst) : (dictLookup obj k).isSome := by
  induction obj with
  | nil => simp at h
  | cons kv rest ih =>
    by_cases hk : k = kv.1
    · simp [dictLookup, hk]
    · simp only [List.map_cons, List.mem_cons] at h
      rcases h with h | h
      · exact absurd h hk
      · simp [dictLookup, hk, ih h]

/-- With duplicate-free keys, the subscript on an entry's key returns
that entry's value. -/
theorem dictLookup_eq_some_of_nodup (obj : List (Nat × Nat)) (kv : Nat × Nat)
    (hnd : (obj.map Prod.fst).Nodup) (hmem : kv ∈ obj) :
    dictLookup obj kv.1 = some kv.2 := by
  induction obj with
  | nil => simp at hmem
  | cons hd rest ih =>
    simp only [List.map_cons, List.nodup_cons] at hnd
    rcases List.mem_cons.mp hmem with h | h
    · subst h; simp [dictLookup]
    · have hne : kv.1 ≠ hd.1 := by
        intro he
        exact hnd.1 (he ▸ List.mem_map_of_mem Prod.fst h)
      simp [dictLookup, hne, ih hnd.2 h]

/-- The inner loop, run over the key list of an entry list whose
subscripts all succeed, yields exactly the block `refBlockOn`. -/
theorem get_dict_keys_dst_inner_eq (reprOf : Nat → String)
    (obj : List (Nat × Nat)) (ref : Nat) (es : List (Nat × Nat))
    (h : ∀ kv ∈ es, dictLookup obj kv.1 = some kv.2) :
    get_dict_keys_dst_inner reprOf obj ref (es.map Prod.fst) =
      some (refBlockOn reprOf ref es) := by
  induction es with
  | nil => rfl
  | cons kv rest ih =>
    have h1 := h kv (List.mem_cons_self kv rest)
    have h2 := ih (fun kv2 hm => h kv2 (List.mem_cons_of_mem _ hm))
    simp [get_dict_keys_dst_inner, h1, h2, refBlockOn]

/-- The inner loop cannot raise when every key it visits is present. -/
theorem get_dict_keys_dst_inner_isSome (reprOf : Nat → String)
    (obj : List (Nat × Nat)) (ref : Nat) (ks : List Nat)
    (h : ∀ k ∈ ks, (dictLookup obj k).isSome) :
    ∃ L, get_dict_keys_dst_inner reprOf obj ref ks = some L := by
  induction ks with
  | nil => exact ⟨[], rfl⟩
  | cons k rest ih =>
    obtain ⟨v, hv⟩ := Option.isSome_iff_exists.mp (h k (List.mem_cons_self k rest))
    obtain ⟨L, hL⟩ := ih (fun k2 hm => h k2 (List.mem_cons_of_mem _ hm))
    exact ⟨(if ref = k then [(Label.str "<key>", ref)] else []) ++
      ((if v = ref then [(Label.str (reprOf k), ref)] else []) ++ L),
      by simp [get_dict_keys_dst_inner, hv, hL]⟩

/-- With duplicate-free keys, `get_dict_keys_dst` returns exactly the
referent-major concatenation of per-referent blocks. -/
theorem get_dict_keys_dst_eq_dictBlocks (reprOf : Nat → String)
    (obj : List (Nat × Nat)) (refs : List Nat)
    (hnd : (obj.map Prod.fst).Nodup) :
    get_dict_keys_dst reprOf obj refs = some (dictBlocks reprOf obj refs) := by
  induction refs with
  | nil => rfl
  | cons ref rest ih =>
    have hb := get_dict_keys_dst_inner_eq reprOf obj ref obj
      (fun kv hm => dictLookup_eq_some_of_nodup obj kv hnd hm)
    simp [get_dict_keys_dst, hb, ih, dictBlocks]

/-- `get_dict_keys_dst` never raises: every subscript it performs uses a
key taken from the dict's own key list. -/
theorem get_dict_keys_dst_isSome (reprOf : Nat → String)
    (obj : List (Nat × Nat)) (refs : List Nat) :
    ∃ L, get_dict_keys_dst reprOf obj refs = some L := by
  induction refs with
  | nil => exact ⟨[], rfl⟩
  | cons ref rest ih =>
    obtain ⟨B, hB⟩ := get_dict_keys_dst_inner_isSome reprOf obj ref _
      (fun k hk => dictLookup_isSome_of_mem obj k hk)
    obtain ⟨L, hL⟩ := ih
    exact ⟨B ++ L, by simp [get_dict_keys_dst, hB, hL]⟩

/-- Membership in a guarded singleton list. -/
theorem mem_ite_singleton {α : Type} {c : Prop} [Decidable c] {a e : α} :
    (e ∈ if c then [a] else []) ↔ c ∧ e = a := by
  split <;> simp_all

/-- Membership in a per-referent block: an edge is either the sentinel
edge of an entry whose key is the referent, or the repr-labelled value
edge of an entry whose value is the referent. -/
theorem mem_refBlockOn {reprOf : Nat → String} {ref : Nat}
    {obj : List (Nat × Nat)} {e : Label × Nat} :
    e ∈ refBlockOn reprOf ref obj ↔
      ∃ kv ∈ obj, (ref = kv.1 ∧ e = (Label.str "<key>", ref)) ∨
        (kv.2 = ref ∧ e = (Label.str (reprOf kv.1), ref)) := by
  induction obj with
  | nil => simp [refBlockOn]
  | cons kv rest ih =>
    simp only [refBlockOn, List.mem_append, mem_ite_singleton, ih,
      List.mem_cons, exists_eq_or_imp]

/-- Every edge in a per-referent block points at the referent. -/
theorem snd_eq_of_mem_refBlockOn {reprOf : Nat → String} {ref : Nat}
    {obj : List (Nat × Nat)} {e : Label × Nat}
    (h : e ∈ refBlockOn reprOf ref obj) : e.2 = ref := by
  rcases mem_refBlockOn.mp h with ⟨kv, _, hc | hc⟩ <;> rw [hc.2]

/-- Membership in the full output: an edge occurs iff it occurs in the
block of some referent. -/
theorem mem_dictBlocks {reprOf : Nat → String} {obj : List (Nat × Nat)}
    {refs : List Nat} {e : Label × Nat} :
    e ∈ dictBlocks reprOf obj refs ↔
      ∃ ref ∈ refs, e ∈ refBlockOn reprOf ref obj := by
  induction refs with
  | nil => simp [dictBlocks]
  | cons ref rest ih =>
    simp [dictBlocks, List.mem_append, ih, List.mem_cons, exists_eq_or_imp]

/-- Counting value edges in one referent's block: one per entry whose
value is the referent (when no key's repr collides with the sentinel). -/
theorem countP_isValueEdge_refBlockOn (reprOf : Nat → String) (ref : Nat)
    (obj : List (Nat × Nat)) (hr : ∀ kv ∈ obj, reprOf kv.1 ≠ "<key>") :
    (refBlockOn reprOf ref obj).countP isValueEdge =
      obj.countP (fun kv => decide (kv.2 = ref)) := by
  induction obj with
  | nil => rfl
  | cons kv rest ih =>
    have hkv := hr kv (List.mem_cons_self kv rest)
    have ih2 := ih (fun kv2 hm => hr kv2 (List.mem_cons_of_mem _ hm))
    have hA : (List.countP isValueEdge
        (if ref = kv.1 then [(Label.str "<key>", ref)] else [])) = 0 := by
      split <;> simp [isValueEdge]
    by_cases h2 : kv.2 = ref <;>
      simp [refBlockOn, List.countP_append, List.countP_cons, ih2, hA, h2,
        isValueEdge, hkv]

/-- Counting value edges toward a fixed destination `x` in one
referent's block: zero unless the referent is `x`. -/
theorem countP_valueEdgeTo_refBlockOn (reprOf : Nat → String) (ref x : Nat)
    (obj : List (Nat × Nat)) (hr : ∀ kv ∈ obj, reprOf kv.1 ≠ "<key>") :
    (refBlockOn reprOf ref obj).countP
        (fun e => decide (e.2 = x) && isValueEdge e) =
      if ref = x then obj.countP (fun kv => decide (kv.2 = x)) else 0 := by
  by_cases hx : ref = x
  · subst hx
    rw [if_pos rfl, List.countP_congr, countP_isValueEdge_refBlockOn reprOf ref obj hr]
    intro e he
    simp [snd_eq_of_mem_refBlockOn he]
  · rw [if_neg hx]
    rw [List.countP_eq_zero]
    intro e he
    simp [snd_eq_of_mem_refBlockOn he, hx]

/-- Counting over the full output is summing per-referent counts. -/
theorem countP_dictBlocks (reprOf : Nat → String) (obj : List (Nat × Nat))
    (refs : List Nat) (p : Label × Nat → Bool) :
    (dictBlocks reprOf obj refs).countP p =
      ((refs.map (fun ref => (refBlockOn reprOf ref obj).countP p)).sum) := by
  induction refs with
  | nil => rfl
  | cons ref rest ih => simp [dictBlocks, List.countP_append, ih]

/-- The value edges of one referent's block are exactly the
repr-labelled images, in insertion order, of the entries whose value is
the referent. -/
theorem filter_isValueEdge_refBlockOn (reprOf : Nat → String) (ref : Nat)
    (d : List (Nat × Nat)) (hr : ∀ kv ∈ d, reprOf kv.1 ≠ "<key>") :
    (refBlockOn reprOf ref d).filter isValueEdge =
      (d.filter (fun kv => decide (kv.2 = ref))).map
        (fun kv => (Label.str (reprOf kv.1), kv.2)) := by
  induction d with
  | nil => rfl
  | cons kv rest ih =>
    have hkv := hr kv (List.mem_cons_self kv rest)
    have ih2 := ih (fun kv2 hm => hr kv2 (List.mem_cons_of_mem _ hm))
    have hA : (if ref = kv.1 then [(Label.str "<key>", ref)] else []).filter
        isValueEdge = [] := by
      split <;> simp [isValueEdge]
    simp only [refBlockOn, List.filter_append, hA, List.nil_append, ih2,
      List.filter_cons]
    by_cases h2 : kv.2 = ref
    · subst h2
      simp [isValueEdge, hkv]
    · simp [h2]

/-- Two lists with the same occurrence count for every element are
permutations of one another. -/
theorem perm_of_countP {α : Type} [DecidableEq α] {l₁ l₂ : List α}
    (h : ∀ a, l₁.countP (fun b => decide (b = a)) =
      l₂.countP (fun b => decide (b = a))) : l₁.Perm l₂ := by
  rw [List.perm_iff_count]
  intro a
  exact h a

/-- Counting a fixed edge among the value edges drawn from the entries
with value `ref`: the count is nonzero only when `ref` is the edge's
destination. -/
theorem countP_valueEdges_block (reprOf : Nat → String) (ref : Nat)
    (d : List (Nat × Nat)) (e : Label × Nat) :
    ((d.filter (fun kv => decide (kv.2 = ref))).map
        (fun kv => (Label.str (reprOf kv.1), kv.2))).countP
        (fun b => decide (b = e)) =
      if ref = e.2 then
        (d.map (fun kv => (Label.str (reprOf kv.1), kv.2))).countP
          (fun b => decide (b = e))
      else 0 := by
  by_cases hre : ref = e.2
  · rw [if_pos hre]
    induction d with
    | nil => rfl
    | cons kv rest ih =>
      by_cases h2 : kv.2 = ref
      · simp [List.filter_cons, h2, List.countP_cons, ih]
      · have hne : ¬ ((Label.str (reprOf kv.1), kv.2) = e) := by
          intro he
          apply h2
          rw [hre]
          exact congrArg Prod.snd he
        simp [List.filter_cons, h2, List.countP_cons, ih, hne]
  · rw [if_neg hre, List.countP_eq_zero]
    intro b hmem
    simp only [decide_eq_true_eq]
    intro hbe
    rcases List.mem_map.mp hmem with ⟨kv, hkv, hf⟩
    have hv : kv.2 = ref := of_decide_eq_true (List.mem_filter.mp hkv).2
    apply hre
    rw [← hv, ← hbe, ← hf]

/-- The count of any edge among the value edges of the full output: the
occurrence count of the edge's destination among the referents times
the edge's count among the per-entry value edges. -/
theorem countP_filter_dictBlocks (reprOf : Nat → String)
    (d : List (Nat × Nat)) (refs : List Nat) (e : Label × Nat)
    (hr : ∀ kv ∈ d, reprOf kv.1 ≠ "<key>") :
    ((dictBlocks reprOf d refs).filter isValueEdge).countP
        (fun b => decide (b = e)) =
      refs.count e.2 *
        ((d.map (fun kv => (Label.str (reprOf kv.1), kv.2))).countP
          (fun b => decide (b = e))) := by
  induction refs with
  | nil => simp [dictBlocks]
  | cons ref rest ih =>
    simp only [dictBlocks, List.filter_append, List.countP_append, ih,
      filter_isValueEdge_refBlockOn reprOf ref d hr,
      countP_valueEdges_block reprOf ref d e, List.count_cons]
    by_cases h : ref = e.2 <;> simp [h, Nat.add_mul, Nat.add_comm]

/-- When every value of the dict occurs exactly once among the
referents, the value edges of the output are, up to order, exactly one
repr-labelled edge per entry of the dict. -/
theorem perm_valueEdges (reprOf : Nat → String) (d : List (Nat × Nat))
    (refs : List Nat) (hr : ∀ kv ∈ d, reprOf kv.1 ≠ "<key>")
    (hvals : ∀ v ∈ d.map Prod.snd, refs.count v = 1) :
    ((dictBlocks reprOf d refs).filter isValueEdge).Perm
      (d.map (fun kv => (Label.str (reprOf kv.1), kv.2))) := by
  apply perm_of_countP
  intro e
  rw [countP_filter_dictBlocks reprOf d refs e hr]
  by_cases hz : ((d.map (fun kv => (Label.str (reprOf kv.1), kv.2))).countP
      (fun b => decide (b = e))) = 0
  · rw [hz, Nat.mul_zero]
  · have hpos := Nat.pos_of_ne_zero hz
    rcases List.countP_pos_iff.mp hpos with ⟨b, hmem, hb⟩
    have hbe : b = e := of_decide_eq_true hb
    rcases List.mem_map.mp hmem with ⟨kv, hkv, hf⟩
    have h2 : kv.2 = e.2 := by
      rw [← hbe, ← hf]
    have h1 : refs.count e.2 = 1 := by
      rw [← h2]
      exact hvals kv.2 (List.mem_map_of_mem Prod.snd hkv)
    rw [h1, Nat.one_mul]

/-- Summing `m` over exactly the occurrences of `x` in the referents
list multiplies the occurrence count by `m`. -/
theorem sum_map_ite_mul (x m : Nat) (refs : List Nat) :
    (refs.map (fun ref => if ref = x then m else 0)).sum =
      refs.count x * m := by
  induction refs with
  | nil => simp
  | cons r rest ih =>
    simp only [List.map_cons, List.sum_cons, List.count_cons, ih]
    by_cases h : r = x
    · simp [h, Nat.add_mul, Nat.add_comm]
    · simp [h]

/-- The value-edge labels of one referent's block, in order, form a
sublist of the insertion-ordered repr labels of the dict's keys. -/
theorem valueEdge_labels_sublist (reprOf : Nat → String) (ref : Nat)
    (obj : List (Nat × Nat)) (hr : ∀ kv ∈ obj, reprOf kv.1 ≠ "<key>") :
    (((refBlockOn reprOf ref obj).filter isValueEdge).map Prod.fst).Sublist
      (obj.map (fun kv => Label.str (reprOf kv.1))) := by
  induction obj with
  | nil => simp [refBlockOn]
  | cons kv rest ih =>
    have hkv := hr kv (List.mem_cons_self kv rest)
    have ih2 := ih (fun kv2 hm => hr kv2 (List.mem_cons_of_mem _ hm))
    have hA : (if ref = kv.1 then [(Label.str "<key>", ref)] else []).filter
        isValueEdge = [] := by
      split <;> simp [isValueEdge]
    simp only [refBlockOn, List.filter_append, List.map_append, List.map_cons,
      hA, List.map_nil, List.nil_append]
    by_cases h2 : kv.2 = ref
    · have hB : ((if kv.2 = ref then [(Label.str (reprOf kv.1), ref)] else
          []).filter isValueEdge) = [(Label.str (reprOf kv.1), ref)] := by
        rw [if_pos h2]
        simp [isValueEdge, hkv]
      simp only [hB, List.map_cons, List.map_nil, List.cons_append,
        List.nil_append]
      exact List.Sublist.cons₂ _ ih2
    · have hB : ((if kv.2 = ref then [(Label.str (reprOf kv.1), ref)] else
          []).filter isValueEdge) = [] := by
        rw [if_neg h2]
        rfl
      simp only [hB, List.map_nil, List.nil_append]
      exact List.Sublist.cons _ ih2

/-- Element lookup in the output of `enumerate`: position `i` holds the
pair of label `n + i` and the sequence element at `i`. -/
theorem pyEnumerateFrom_get (xs : List Nat) (n i : Nat) :
    (pyEnumerateFrom n xs).get? i =
      (xs.get? i).map (fun x => (Label.idx (n + i), x)) := by
  induction xs generalizing n i with
  | nil => simp [pyEnumerateFrom]
  | cons x rest ih =>
    cases i with
    | zero => simp [pyEnumerateFrom]
    | succ j =>
      simp only [pyEnumerateFrom, List.get?_cons_succ, ih (n + 1) j]
      rw [Nat.add_assoc, Nat.add_comm 1 j]

/-- The list branch's scan loop is the same function as the generic
fallback's scan loop: the two loop bodies are identical in the source.
-/
theorem list_branch_go_eq_other (obj : Nat) (xs : List Nat)
    (idxs : List Nat) : list_branch_go obj xs idxs = other_branch_go obj xs idxs := by
  induction idxs with
  | nil => rfl
  | cons i rest ih =>
    cases hx : xs.get? i <;> simp [list_branch_go, other_branch_go, hx, ih]

/-- The tuple branch's scan loop is the same function as the generic
fallback's scan loop. -/
theorem tuple_branch_go_eq_other (obj : Nat) (xs : List Nat)
    (idxs : List Nat) : tuple_branch_go obj xs idxs = other_branch_go obj xs idxs := by
  induction idxs with
  | nil => rfl
  | cons i rest ih =>
    cases hx : xs.get? i <;> simp [tuple_branch_go, other_branch_go, hx, ih]

/-- The generic scan loop over in-bounds indices never raises and keeps
exactly the indices whose element is the searched object, preserving
the order of the index list. -/
theorem other_branch_go_eq (obj : Nat) (xs : List Nat) (idxs : List Nat)
    (h : ∀ i ∈ idxs, i < xs.length) :
    other_branch_go obj xs idxs =
      some (idxs.filter (fun i => decide (xs.get? i = some obj))) := by
  induction idxs with
  | nil => rfl
  | cons i rest ih =>
    have hi : i < xs.length := h i (List.mem_cons_self i rest)
    have hx : xs[i]? = some (xs.get ⟨i, hi⟩) := by
      rw [List.getElem?_eq_getElem hi]
      simp [List.get_eq_getElem]
    have ih2 := ih (fun j hj => h j (List.mem_cons_of_mem _ hj))
    by_cases hxo : xs[i] = obj <;>
      simp [other_branch_go, hx, ih2, List.filter_cons, hxo,
        List.get_eq_getElem]

/-- `find_in_tuple_or_list` computes, on every container shape, the
in-order filter of `range(len(container))` keeping the positions that
hold the searched object. -/
theorem find_in_tuple_or_list_eq (obj : Nat) (c : Container) :
    find_in_tuple_or_list obj c =
      some ((List.range c.elems.length).filter
        (fun i => decide (c.elems.get? i = some obj))) := by
  cases c <;>
    simp [find_in_tuple_or_list, Container.elems, list_branch, tuple_branch,
      other_branch, list_branch_go_eq_other, tuple_branch_go_eq_other,
      other_branch_go_eq _ _ _ (fun i hi => List.mem_range.mp hi)]

/-! ### The claims -/

/-- Claim C1: for every dict containing an entry whose key `K` is a
tracked object mapped to value `V`, with both `K` and `V` present in the
referents list, the dict shape adapter's output includes both the pair
`('<key>', K)` and the pair `(repr(K), V)`. -/
theorem claim_C1_dict_object_key (reprOf : Nat → String)
    (d : List (Nat × Nat)) (refs : List Nat) (K V : Nat)
    (hnd : (d.map Prod.fst).Nodup) (hKV : (K, V) ∈ d)
    (hK : K ∈ refs) (hV : V ∈ refs) :
    ∃ L, get_dict_keys_dst reprOf d refs = some L ∧
      (Label.str "<key>", K) ∈ L ∧ (Label.str (reprOf K), V) ∈ L := by
  refine ⟨dictBlocks reprOf d refs,
    get_dict_keys_dst_eq_dictBlocks reprOf d refs hnd, ?_, ?_⟩
  · exact mem_dictBlocks.mpr
      ⟨K, hK, mem_refBlockOn.mpr ⟨(K, V), hKV, Or.inl ⟨rfl, rfl⟩⟩⟩
  · exact mem_dictBlocks.mpr
      ⟨V, hV, mem_refBlockOn.mpr ⟨(K, V), hKV, Or.inr ⟨rfl, rfl⟩⟩⟩

/-- Witness for C1 at the dict `{1: 2}` with referents `[1, 2]`. -/
theorem claim_C1_witness :
    ∃ L, get_dict_keys_dst (fun n => Nat.repr n) [(1, 2)] [1, 2] = some L ∧
      (Label.str "<key>", 1) ∈ L ∧ (Label.str "1", 2) ∈ L :=
  claim_C1_dict_object_key (fun n => Nat.repr n) [(1, 2)] [1, 2] 1 2
    (by decide) (by decide) (by decide) (by decide)

/-- Claim C2 counterexample: a key whose textual representation has 65
characters still gets its value edge labelled with the literal
representation (and no `<key>`-labelled edge is emitted at all), contrary
to the claimed 64-character cutoff policy. -/
theorem claim_C2_counterexample :
    64 < longKeyRepr.length ∧
    get_dict_keys_dst (fun _ => longKeyRepr) [(1, 2)] [2] =
      some [(Label.str longKeyRepr, 2)] ∧
    (Label.str "<key>", 2) ∉ [(Label.str longKeyRepr, 2)] :=
  ⟨by decide, by decide, by decide⟩

/-- Claim C2 as amended: the value edge is always labelled with the
key's literal textual representation, with no cutoff on its length, and
the `<key>` sentinel edge is emitted exactly for keys that themselves
occur in the referents list. -/
theorem claim_C2_amended (reprOf : Nat → String) (d : List (Nat × Nat))
    (refs : List Nat) (hnd : (d.map Prod.fst).Nodup)
    (hr : ∀ kv ∈ d, reprOf kv.1 ≠ "<key>") :
    ∃ L, get_dict_keys_dst reprOf d refs = some L ∧
      (∀ k v, (k, v) ∈ d → v ∈ refs → (Label.str (reprOf k), v) ∈ L) ∧
      (∀ r, (Label.str "<key>", r) ∈ L ↔ r ∈ refs ∧ r ∈ d.map Prod.fst) := by
  refine ⟨dictBlocks reprOf d refs,
    get_dict_keys_dst_eq_dictBlocks reprOf d refs hnd, ?_, ?_⟩
  · intro k v hkv hv
    exact mem_dictBlocks.mpr
      ⟨v, hv, mem_refBlockOn.mpr ⟨(k, v), hkv, Or.inr ⟨rfl, rfl⟩⟩⟩
  · intro r
    constructor
    · intro hmem
      rcases mem_dictBlocks.mp hmem with ⟨ref, href, hblk⟩
      rcases mem_refBlockOn.mp hblk with ⟨kv, hkv, hc | hc⟩
      · obtain ⟨h1, h2⟩ := hc
        have hrr : r = ref := by
          have := congrArg Prod.snd h2
          simpa using this
        subst hrr
        refine ⟨href, ?_⟩
        rw [h1]
        exact List.mem_map_of_mem Prod.fst hkv
      · obtain ⟨h1, h2⟩ := hc
        have h3 : "<key>" = reprOf kv.1 := by
          have := congrArg Prod.fst h2
          simpa using this
        exact absurd h3.symm (hr kv hkv)
    · rintro ⟨hrefs, hkeys⟩
      rcases List.mem_map.mp hkeys with ⟨kv, hkv, hfst⟩
      exact mem_dictBlocks.mpr
        ⟨r, hrefs, mem_refBlockOn.mpr ⟨kv, hkv, Or.inl ⟨hfst.symm, rfl⟩⟩⟩

/-- Witness for the amended C2 at the dict `{1: 2}` whose key's repr has
65 characters, with referents `[2]`. -/
theorem claim_C2_witness :
    ∃ L, get_dict_keys_dst (fun _ => longKeyRepr) [(1, 2)] [2] = some L ∧
      (∀ k v, (k, v) ∈ [(1, 2)] → v ∈ [2] →
        (Label.str ((fun _ => longKeyRepr) k), v) ∈ L) ∧
      (∀ r, (Label.str "<key>", r) ∈ L ↔
        r ∈ [2] ∧ r ∈ [(1, 2)].map Prod.fst) :=
  claim_C2_amended (fun _ => longKeyRepr) [(1, 2)] [2] (by decide)
    (by decide)

/-- Claim C3: for every list or tuple, `get_keys_dst` yields exactly the
pairs `(i, c[i])` for positions `0..len(c)-1` in increasing positional
order, independently of the referents list. -/
theorem claim_C3_sequence_enumeration (reprOf : Nat → String)
    (xs : List Nat) (refs : List Nat) :
    ∃ L, get_keys_dst reprOf (PyObj.list xs) refs = some L ∧
      get_keys_dst reprOf (PyObj.tuple xs) refs = some L ∧
      (∀ refs2, get_keys_dst reprOf (PyObj.list xs) refs2 = some L ∧
        get_keys_dst reprOf (PyObj.tuple xs) refs2 = some L) ∧
      ∀ i, L.get? i = (xs.get? i).map (fun x => (Label.idx i, x)) := by
  refine ⟨pyEnumerate xs, rfl, rfl, fun refs2 => ⟨rfl, rfl⟩, fun i => ?_⟩
  simpa [pyEnumerate] using pyEnumerateFrom_get xs 0 i

/-- Claim C4: when every key and value of the dict occurs exactly once
in the referents list, the adapter emits exactly one value edge per
entry: the value edges are a permutation of the per-entry repr-labelled
edges (so no entry is skipped and none produces more than one), their
total count equals the entry count, and each entry's value edge is
present. -/
theorem claim_C4_one_value_edge_per_entry (reprOf : Nat → String)
    (d : List (Nat × Nat)) (refs : List Nat)
    (hnd : (d.map Prod.fst).Nodup)
    (hr : ∀ kv ∈ d, reprOf kv.1 ≠ "<key>")
    (_hkeys : ∀ k ∈ d.map Prod.fst, refs.count k = 1)
    (hvals : ∀ v ∈ d.map Prod.snd, refs.count v = 1) :
    ∃ L, get_dict_keys_dst reprOf d refs = some L ∧
      (L.filter isValueEdge).Perm
        (d.map (fun kv => (Label.str (reprOf kv.1), kv.2))) ∧
      (L.filter isValueEdge).length = d.length ∧
      ∀ kv ∈ d, (Label.str (reprOf kv.1), kv.2) ∈ L := by
  have hperm := perm_valueEdges reprOf d refs hr hvals
  refine ⟨dictBlocks reprOf d refs,
    get_dict_keys_dst_eq_dictBlocks reprOf d refs hnd, hperm, ?_, ?_⟩
  · rw [hperm.length_eq, List.length_map]
  · intro kv hkv
    have hv1 : refs.count kv.2 = 1 :=
      hvals kv.2 (List.mem_map_of_mem Prod.snd hkv)
    have hvmem : kv.2 ∈ refs := by
      rw [← List.count_pos_iff]
      omega
    exact mem_dictBlocks.mpr
      ⟨kv.2, hvmem, mem_refBlockOn.mpr ⟨kv, hkv, Or.inr ⟨rfl, rfl⟩⟩⟩

/-- Witness for C4 at the dict `{1: 2, 3: 4}` with referents
`[1, 2, 3, 4]`. -/
theorem claim_C4_witness :
    ∃ L, get_dict_keys_dst (fun n => Nat.repr n) [(1, 2), (3, 4)]
        [1, 2, 3, 4] = some L ∧
      (L.filter isValueEdge).Perm
        ([(1, 2), (3, 4)].map (fun kv => (Label.str (Nat.repr kv.1), kv.2))) ∧
      (L.filter isValueEdge).length = ([(1, 2), (3, 4)] :
        List (Nat × Nat)).length ∧
      ∀ kv ∈ ([(1, 2), (3, 4)] : List (Nat × Nat)),
        (Label.str (Nat.repr kv.1), kv.2) ∈ L :=
  claim_C4_one_value_edge_per_entry (fun n => Nat.repr n) [(1, 2), (3, 4)]
    [1, 2, 3, 4] (by decide) (by decide) (by decide) (by decide)

/-- Claim C5 counterexample: the same dict `{1: 2, 3: 4}` produces its
two value edges in opposite orders for referents `[4, 2]` and `[2, 4]`:
the emission order follows the referents list, not the mapping's
insertion order. -/
theorem claim_C5_counterexample :
    get_dict_keys_dst (fun n => Nat.repr n) [(1, 2), (3, 4)] [4, 2] =
      some [(Label.str "3", 4), (Label.str "1", 2)] ∧
    get_dict_keys_dst (fun n => Nat.repr n) [(1, 2), (3, 4)] [2, 4] =
      some [(Label.str "1", 2), (Label.str "3", 4)] ∧
    ([(Label.str "3", 4), (Label.str "1", 2)] : List (Label × Nat)) ≠
      [(Label.str "1", 2), (Label.str "3", 4)] :=
  ⟨by decide, by decide, by decide⟩

/-- Claim C5 as amended: the output is the concatenation, in
referents-list order, of one block per referent, and within each block
the value edges appear in the mapping's insertion order (their labels
form a sublist of the insertion-ordered key labels). -/
theorem claim_C5_amended (reprOf : Nat → String) (d : List (Nat × Nat))
    (refs : List Nat) (hnd : (d.map Prod.fst).Nodup)
    (hr : ∀ kv ∈ d, reprOf kv.1 ≠ "<key>") :
    get_dict_keys_dst reprOf d refs = some (dictBlocks reprOf d refs) ∧
    ∀ ref, (((refBlockOn reprOf ref d).filter isValueEdge).map
        Prod.fst).Sublist (d.map (fun kv => Label.str (reprOf kv.1))) :=
  ⟨get_dict_keys_dst_eq_dictBlocks reprOf d refs hnd,
    fun ref => valueEdge_labels_sublist reprOf ref d hr⟩

/-- Witness for the amended C5 at the dict `{1: 2, 3: 4}` with
referents `[4, 2]`. -/
theorem claim_C5_witness :
    get_dict_keys_dst (fun n => Nat.repr n) [(1, 2), (3, 4)] [4, 2] =
      some (dictBlocks (fun n => Nat.repr n) [(1, 2), (3, 4)] [4, 2]) ∧
    ∀ ref, (((refBlockOn (fun n => Nat.repr n) ref [(1, 2), (3, 4)]).filter
        isValueEdge).map Prod.fst).Sublist
      ([(1, 2), (3, 4)].map (fun kv => Label.str (Nat.repr kv.1))) :=
  claim_C5_amended (fun n => Nat.repr n) [(1, 2), (3, 4)] [4, 2]
    (by decide) (by decide)

/-- Claim C6 (code bug): on an object that is not a list, tuple or dict
but has a `__dict__`, `get_keys_dst` does not return attribute-labelled
pairs at all: the instance branch of the source is syntactically invalid
(its scan line lacks a loop keyword, it appends the destination-less
1-tuple `('<key>',)`, and `results` is never returned), so the call
yields no pair list, here at the instance with `__dict__ = {'a': 5}`. -/
theorem claim_C6_instance_branch_broken :
    get_keys_dst (fun n => Nat.repr n) (PyObj.instanceObj [("a", 5)]) [5] =
      none :=
  rfl

/-- Claim C7: the shape-extraction helpers are total on their intended
inputs: every dict-adapter subscript uses a key present in the dict and
every sequence scan stays in bounds, so both functions return a result
and never raise. -/
theorem claim_C7_no_failure (reprOf : Nat → String) (d : List (Nat × Nat))
    (refs : List Nat) (o : Nat) (c : Container) :
    (∃ L, get_dict_keys_dst reprOf d refs = some L) ∧
    (∃ I, find_in_tuple_or_list o c = some I) :=
  ⟨get_dict_keys_dst_isSome reprOf d refs, _, find_in_tuple_or_list_eq o c⟩

/-- Claim C8: the specialized list branch, the specialized tuple branch
and the generic fallback branch of `find_in_tuple_or_list` compute the
same index sequence on the same element sequence. -/
theorem claim_C8_branches_equivalent (obj : Nat) (xs : List Nat) :
    list_branch obj xs = other_branch obj xs ∧
    tuple_branch obj xs = other_branch obj xs ∧
    find_in_tuple_or_list obj (Container.list xs) =
      find_in_tuple_or_list obj (Container.other xs) ∧
    find_in_tuple_or_list obj (Container.tuple xs) =
      find_in_tuple_or_list obj (Container.other xs) := by
  refine ⟨?_, ?_, ?_, ?_⟩ <;>
    simp [find_in_tuple_or_list, list_branch, tuple_branch, other_branch,
      list_branch_go_eq_other, tuple_branch_go_eq_other]

/-- Claim C9: `find_in_tuple_or_list` yields an index `i` exactly when
the container's element at `i` is the identical object (id equality, the
embedding of Python `is`; no equality predicate is consulted), each
matching index exactly once, in strictly increasing order. -/
theorem claim_C9_yields_identity_matches (obj : Nat) (c : Container) :
    ∃ I, find_in_tuple_or_list obj c = some I ∧
      (∀ i, i ∈ I ↔ c.elems.get? i = some obj) ∧
      I.Pairwise (fun a b => a < b) := by
  refine ⟨_, find_in_tuple_or_list_eq obj c, fun i => ?_, ?_⟩
  · constructor
    · intro hmem
      exact of_decide_eq_true ((List.mem_filter.mp hmem).2)
    · intro hget
      refine List.mem_filter.mpr ⟨List.mem_range.mpr ?_, decide_eq_true hget⟩
      obtain ⟨h, _⟩ := List.get?_eq_some.mp hget
      exact h
  · exact List.Pairwise.sublist (List.filter_sublist _)
      (List.pairwise_lt_range _)

/-- Claim C10: the dict adapter's output is multiplicity-sensitive in
the referents list: an object occurring `n` times among the referents
and standing as the value of `m` entries receives `n * m` value edges. -/
theorem claim_C10_multiplicity (reprOf : Nat → String)
    (d : List (Nat × Nat)) (refs : List Nat) (x : Nat)
    (hnd : (d.map Prod.fst).Nodup)
    (hr : ∀ kv ∈ d, reprOf kv.1 ≠ "<key>") :
    ∃ L, get_dict_keys_dst reprOf d refs = some L ∧
      (L.filter (fun e => decide (e.2 = x) && isValueEdge e)).length =
        refs.count x * (d.filter (fun kv => decide (kv.2 = x))).length := by
  refine ⟨dictBlocks reprOf d refs,
    get_dict_keys_dst_eq_dictBlocks reprOf d refs hnd, ?_⟩
  rw [← List.countP_eq_length_filter, ← List.countP_eq_length_filter,
    countP_dictBlocks,
    List.map_congr_left
      (fun ref _ => countP_valueEdgeTo_refBlockOn reprOf ref x d hr),
    List.countP_eq_length_filter, sum_map_ite_mul]

/-- Witness for C10 at the dict `{1: 5, 2: 5, 3: 7}` with referents
`[5, 9, 5]` and target object `5`: two occurrences times two entries
give four value edges. -/
theorem claim_C10_witness :
    ∃ L, get_dict_keys_dst (fun n => Nat.repr n) [(1, 5), (2, 5), (3, 7)]
        [5, 9, 5] = some L ∧
      (L.filter (fun e => decide (e.2 = 5) && isValueEdge e)).length =
        ([5, 9, 5] : List Nat).count 5 *
          (([(1, 5), (2, 5), (3, 7)] : List (Nat × Nat)).filter
            (fun kv => decide (kv.2 = 5))).length :=
  claim_C10_multiplicity (fun n => Nat.repr n) [(1, 5), (2, 5), (3, 7)]
    [5, 9, 5] 5 (by decide) (by decide)
